import Mathlib

/-!
Verification development for the save-game backup manager (`backup.py`).

The engine (`SaveBackupManager`) is shallowly embedded over a model of
directory trees.  Pure directory contents are association lists of
(name, subtree); the save directory and the backup root are modelled as two
separate trees (the general CLI configuration `--save-dir` plus
`--backup-dir`; the default nested layout `save_dir/backups` is represented
by a save-dir entry named "backups").  Timestamps are modelled as natural
numbers written `YYYYMMDDHHMMSS` (14 decimal digits), so that calendar order
of valid datetimes coincides with numeric order; `strftime("%Y%m%d_%H%M%S")`
becomes the fixed-width zero-padded rendering `backupName`.  Interactive
`input()` confirmation prompts are modelled by a boolean parameter carrying
the result of the comparison `input(...) == 'y'`; mid-copy exceptions during
`shutil.copytree` are modelled by a failure-injection parameter `failAt`
(the `failAt`-th file copy raises, as in the repository's own test
monkeypatching of `shutil.copy2`; `failAt = 0` injects no failure).
-/

/-- A filesystem tree: a file with string contents, or a directory whose
entries are a list of (name, subtree) pairs in listing order. -/
inductive FSTree where
  | file (content : String)
  | dir (entries : List (String × FSTree))

/-- Character-list test that `s` ends with `pat` (kernel-reducible
replacement for `String.endsWith`). -/
def endsWithList (s pat : List Char) : Bool := pat.reverse.isPrefixOf s.reverse

/-- The ignore patterns of `create_backup`'s copytree call (backup.py:381):
`shutil.ignore_patterns("backups", "*.pyc", "__pycache__", "*.tmp")`.
`fnmatch` matches entry names (files and directories alike), so "backups" is
an exact-name match and the starred patterns are suffix matches. -/
def ignoredName (s : String) : Bool :=
  s == "backups" || s == "__pycache__" ||
    endsWithList s.data ".pyc".data || endsWithList s.data ".tmp".data

mutual

/-- Number of files (at any depth) in a tree: `os.walk` file count, no
exclusions (backup.py:361). -/
def countFilesTree : FSTree → Nat
  | .file _ => 1
  | .dir es => countFilesEntries es

/-- Number of files (at any depth) below a directory's entries. -/
def countFilesEntries : List (String × FSTree) → Nat
  | [] => 0
  | (_, t) :: rest => countFilesTree t + countFilesEntries rest

end

/-- Prepend an optional entry. -/
def consOpt (n : String) : Option FSTree → List (String × FSTree) → List (String × FSTree)
  | none, es => es
  | some t, es => (n, t) :: es

mutual

/-- `shutil.copytree` body for one source node (backup.py:378-383), with the
per-file counter `c` of `copy_with_progress` threaded through and a failure
injection: the `failAt`-th file copy raises (the file is then not written and
the exception propagates, as with the RuntimeError of the repository's
interruption test).  For a file the result is `none` exactly when the copy
raised; a directory is created first and keeps whatever was copied into it
before a failure (copytree does not remove partial output). -/
def copyTree (failAt : Nat) : FSTree → Nat → Option FSTree × Nat × Bool
  | .file s, c =>
    if c + 1 == failAt then (none, c + 1, false) else (some (.file s), c + 1, true)
  | .dir es, c =>
    match copyEntries failAt es c with
    | (es', c', ok) => (some (.dir es'), c', ok)

/-- `shutil.copytree` over a directory listing: names matching the ignore
patterns are skipped at every level; entries are processed in listing order;
a raised exception aborts the remaining entries but keeps what was already
copied. -/
def copyEntries (failAt : Nat) : List (String × FSTree) → Nat →
    List (String × FSTree) × Nat × Bool
  | [], c => ([], c, true)
  | (n, t) :: rest, c =>
    if ignoredName n then copyEntries failAt rest c
    else
      match copyTree failAt t c with
      | (res, c', ok) =>
        if ok then
          match copyEntries failAt rest c' with
          | (es, c'', ok') => (consOpt n res es, c'', ok')
        else (consOpt n res [], c', false)

end

mutual

/-- The copy of one node when no failure is injected (derived helper:
`copyTree 0` computes this). -/
def copyPureTree : FSTree → FSTree
  | .file s => .file s
  | .dir es => .dir (copyPure es)

/-- The copied listing when no failure is injected (derived helper:
`copyEntries 0` computes this). -/
def copyPure : List (String × FSTree) → List (String × FSTree)
  | [] => []
  | (n, t) :: rest =>
    if ignoredName n then copyPure rest else (n, copyPureTree t) :: copyPure rest

end

mutual

/-- Does some node at any depth of the tree (the root's name excluded)
satisfy the name predicate `p`? -/
def existsNodeTree (p : String → Bool) : FSTree → Bool
  | .file _ => false
  | .dir es => existsNodeEntries p es

/-- Does some entry at any depth of the listing satisfy `p`? -/
def existsNodeEntries (p : String → Bool) : List (String × FSTree) → Bool
  | [] => false
  | (n, t) :: rest => p n || existsNodeTree p t || existsNodeEntries p rest

end

/-- Python string comparison: lexicographic on code points. -/
def pyStrLt : List Char → List Char → Bool
  | [], [] => false
  | [], _ :: _ => true
  | _ :: _, [] => false
  | a :: as, b :: bs =>
    if a.toNat < b.toNat then true
    else if b.toNat < a.toNat then false
    else pyStrLt as bs

/-- Decimal digit characters as produced by `strftime`'s zero-padded fields. -/
def digitChar : Nat → Char
  | 0 => '0' | 1 => '1' | 2 => '2' | 3 => '3' | 4 => '4'
  | 5 => '5' | 6 => '6' | 7 => '7' | 8 => '8' | 9 => '9'
  | _ => '?'

/-- Fixed-width, zero-padded decimal rendering (most significant digit
first); for `n < 10 ^ w` this is the `w`-digit zero-padded numeral. -/
def padDigits : Nat → Nat → List Char
  | 0, _ => []
  | w + 1, n => digitChar (n / 10 ^ w) :: padDigits w (n % 10 ^ w)

/-- Characters of `f"backup_{timestamp}"` with
`timestamp = now.strftime("%Y%m%d_%H%M%S")` (backup.py:347-348), the
timestamp being modelled as the 14-digit number `YYYYMMDDHHMMSS`. -/
def backupChars (ts : Nat) : List Char :=
  "backup_".data ++ padDigits 8 (ts / 1000000) ++ '_' :: padDigits 6 (ts % 1000000)

/-- The snapshot directory name generated by `create_backup`. -/
def backupName (ts : Nat) : String := String.mk (backupChars ts)

/-- Python `<` on the modelled names. -/
def nameLt (a b : String) : Bool := pyStrLt a.data b.data

/-- `a ≥ b` in Python string order; `sorted(..., reverse=True)` sorts by
this relation. -/
def NameGe (a b : String) : Prop := nameLt a b = false

instance : DecidableRel NameGe := fun _ _ => instDecidableEqBool _ _

/-- Descending Python string sort: `sorted(names, reverse=True)`. -/
def sortDesc (l : List String) : List String := List.insertionSort NameGe l

/-- The glob pattern `backup_*` of `_get_backup_list` (backup.py:342): an
entry matches iff its name starts with `backup_`. -/
def globBackup (n : String) : Bool := "backup_".data.isPrefixOf n.data

/-- State of `SaveBackupManager` (backup.py:302-311): the save directory's
entries, the backup root's entries, the retention bound, and (for
`restore_backup`'s `item != Path(__file__)` test) the name of the top-level
save-dir entry that is the running script itself, if any. -/
structure SaveBackupManager where
  save_dir : List (String × FSTree)
  backups : List (String × FSTree)
  max_backups : Nat
  script_entry : Option String := none

/-- `_get_backup_list` (backup.py:340-343): names under the backup root
matching `backup_*`, sorted descending.  (The source sorts the full paths;
all share the backup-root prefix, so the order is the order of the names.) -/
def get_backup_list (backups : List (String × FSTree)) : List String :=
  sortDesc ((backups.map Prod.fst).filter globBackup)

/-- `_cleanup_old_backups` (backup.py:326-338): if more than `max_backups`
entries match, delete the entries after position `max_backups` of the
descending list (the oldest ones). -/
def cleanup_old_backups (m : SaveBackupManager) : SaveBackupManager :=
  let bs := get_backup_list m.backups
  if bs.length > m.max_backups then
    let toDelete := bs.drop m.max_backups
    { m with backups := m.backups.filter (fun e => !(toDelete.contains e.1)) }
  else m

/-- The description sidecar write of `create_backup` (backup.py:389-391):
append `.backup_description` when a description was given. -/
def withDescription (tree : List (String × FSTree)) : Option String → List (String × FSTree)
  | some d => tree ++ [(".backup_description", .file d)]
  | none => tree

/-- `create_backup` (backup.py:345-403).  Returns the updated state and
`some name` on success, `none` on failure (the Python `None` return).
Failure paths: zero files counted by `os.walk`; `copytree` raising because
the destination name already exists; an injected mid-copy failure (which
leaves the partially populated destination directory in place).  On success
the optional description sidecar is written into the snapshot and retention
cleanup runs. -/
def create_backup (m : SaveBackupManager) (now : Nat) (description : Option String)
    (failAt : Nat) : SaveBackupManager × Option String :=
  let name := backupName now
  if countFilesEntries m.save_dir == 0 then (m, none)
  else if m.backups.any (fun e => e.1 == name) then (m, none)
  else
    match copyEntries failAt m.save_dir 0 with
    | (tree, _, ok) =>
      if ok then
        let m' := { m with backups := m.backups ++ [(name, .dir (withDescription tree description))] }
        (cleanup_old_backups m', some name)
      else
        ({ m with backups := m.backups ++ [(name, .dir tree)] }, none)

/-- Entry lookup by name in the backup root. -/
def findBackup (nm : String) (backups : List (String × FSTree)) : Option FSTree :=
  (backups.find? (fun e => e.1 == nm)).map Prod.snd

/-- `shutil.copy2(src, dst)` of one snapshot file named `n` with contents
`s` into the save directory `acc` (backup.py:540).  When `dst` names an
existing directory, `copy2` re-targets `dst` to `dst/basename(src)` and
copies the file *into* that directory (here `basename(src) = n`, so the file
lands inside the directory under the same name); an existing file at the
final destination is overwritten; a directory at the final destination makes
the underlying `copyfile` raise `IsADirectoryError` (`none`); otherwise the
file is created. -/
def copy2Into (acc : List (String × FSTree)) (n : String) (s : String) :
    Option (List (String × FSTree)) :=
  match findBackup n acc with
  | none => some (acc ++ [(n, .file s)])
  | some (.file _) =>
    some (acc.map (fun e => if e.1 == n then (n, .file s) else e))
  | some (.dir d) =>
    match findBackup n d with
    | some (.dir _) => none
    | some (.file _) =>
      some (acc.map (fun e => if e.1 == n then
        (n, .dir (d.map (fun i => if i.1 == n then (n, .file s) else i))) else e))
    | none =>
      some (acc.map (fun e => if e.1 == n then (n, .dir (d ++ [(n, .file s)])) else e))

/-- The copy loop of `restore_backup` (backup.py:530-543): snapshot entries
in listing order, skipping the `.backup_description` sidecar; directories go
through `shutil.copytree` (which raises if the destination exists, file or
directory, because `os.makedirs` fails), files through `shutil.copy2`
(modelled by `copy2Into`: overwrite an existing file, descend into an
existing directory, raise only on a directory at the final destination).  A
raise aborts the loop, keeping what was restored so far, and
`restore_backup` then returns `False`. -/
def restoreCopy : List (String × FSTree) → List (String × FSTree) →
    List (String × FSTree) × Bool
  | acc, [] => (acc, true)
  | acc, (n, t) :: rest =>
    if n == ".backup_description" then restoreCopy acc rest
    else
      match t with
      | .file s =>
        match copy2Into acc n s with
        | some acc' => restoreCopy acc' rest
        | none => (acc, false)
      | .dir es =>
        if acc.any (fun e => e.1 == n) then (acc, false)
        else restoreCopy (acc ++ [(n, .dir es)]) rest

/-- The removal phase of `restore_backup` (backup.py:516-522): delete every
top-level save-dir entry except ones named "backups" and the running script
file; the test is on the entry name, not on the configured backup root. -/
def removeSaveEntries (script_entry : Option String)
    (save : List (String × FSTree)) : List (String × FSTree) :=
  save.filter (fun e => e.1 == "backups" || script_entry == some e.1)

/-- `restore_backup` with an explicit backup number (backup.py:458-553).
The interactive selection branch (`backup_choice is None`) is presentation
glue and is not modelled; `confirm` is the result of the unconditional
`input(...) == 'y'` confirmation prompt at backup.py:505-506.  `nowSafety`
and `failAtSafety` parametrise the pre-restore safety `create_backup` call.
Steps: resolve the index against the current list; prompt; safety backup
(its failure only produces a warning); delete every top-level save-dir entry
except ones named "backups" or the script itself (backup.py:517-522); copy
the chosen snapshot's entries into the save dir. -/
def restore_backup (m : SaveBackupManager) (backup_choice : Nat) (confirm : Bool)
    (nowSafety : Nat) (failAtSafety : Nat) : SaveBackupManager × Bool :=
  let bs := get_backup_list m.backups
  if bs.length == 0 then (m, false)
  else if backup_choice < 1 || backup_choice > bs.length then (m, false)
  else
    let nm := bs.getD (backup_choice - 1) ""
    if !confirm then (m, false)
    else
      let m₁ := (create_backup m nowSafety (some "Pre-restore safety backup") failAtSafety).1
      let kept := removeSaveEntries m₁.script_entry m₁.save_dir
      match findBackup nm m₁.backups with
      | some (.dir es) =>
        match restoreCopy kept es with
        | (save', ok) => ({ m₁ with save_dir := save' }, ok)
      | _ => ({ m₁ with save_dir := kept }, false)

/-- `delete_backup` with an explicit backup number (backup.py:555-603); the
interactive selection branch is not modelled; `confirm` is the result of the
unconditional `input(...) == 'y'` prompt at backup.py:592-593. -/
def delete_backup (m : SaveBackupManager) (backup_choice : Nat) (confirm : Bool) :
    SaveBackupManager × Bool :=
  let bs := get_backup_list m.backups
  if bs.length == 0 then (m, false)
  else if backup_choice < 1 || backup_choice > bs.length then (m, false)
  else
    let nm := bs.getD (backup_choice - 1) ""
    if !confirm then (m, false)
    else ({ m with backups := m.backups.filter (fun e => !(e.1 == nm)) }, true)

/-- `cleanup_backups` (backup.py:605-629): `keep_count` defaults to
`max_backups`; nothing happens when the count is within the bound; otherwise
the user is prompted (`confirm`), and on confirmation the entries after
position `keep_count` of the descending list are deleted.  The Python
function has no `return value` statement: it always returns `None`, modelled
by the always-`none` second component. -/
def cleanup_backups (m : SaveBackupManager) (keep_count : Option Nat) (confirm : Bool) :
    SaveBackupManager × Option Nat :=
  let keep := keep_count.getD m.max_backups
  let bs := get_backup_list m.backups
  if bs.length ≤ keep then (m, none)
  else if !confirm then (m, none)
  else
    let toDelete := bs.drop keep
    ({ m with backups := m.backups.filter (fun e => !(toDelete.contains e.1)) }, none)

/-- A sequence of `create_backup` calls (no description, no injected
failure) at the given timestamps. -/
def runCreates (m : SaveBackupManager) : List Nat → SaveBackupManager
  | [] => m
  | t :: ts => runCreates (create_backup m t none 0).1 ts

mutual

/-- Helper for `specFileCount`: files below one tree. -/
def specFileCountTree : FSTree → Nat
  | .file _ => 1
  | .dir es => specFileCount es

/-- The spec's file enumeration for `create` ("excluding the backup root
itself and transient/system artifacts (temp files, cache directories)"),
stated over the model where the backup root is a separate tree: files at any
depth whose path avoids the transient/system artifact names.  This
definition follows the spec's words (for comparison with the code's
`os.walk` count, which excludes nothing); the artifact set is the one the
code itself names in its copytree ignore patterns. -/
def specFileCount : List (String × FSTree) → Nat
  | [] => 0
  | (n, t) :: rest =>
    (if ignoredName n then 0 else specFileCountTree t) + specFileCount rest

end

/-- Characters with equal code points are equal. -/
theorem Char.toNat_inj {a b : Char} (h : a.toNat = b.toNat) : a = b :=
  Char.ext (UInt32.ext h)

theorem pyStrLt_irrefl : ∀ l : List Char, pyStrLt l l = false := by
  intro l
  induction l with
  | nil => rfl
  | cons a as ih => simp [pyStrLt, ih]

theorem pyStrLt_asymm : ∀ {a b : List Char}, pyStrLt a b = true → pyStrLt b a = false := by
  intro a
  induction a with
  | nil =>
    intro b h
    cases b with
    | nil => simp [pyStrLt] at h
    | cons x xs => simp [pyStrLt]
  | cons x xs ih =>
    intro b h
    cases b with
    | nil => simp [pyStrLt] at h
    | cons y ys =>
      simp only [pyStrLt] at h ⊢
      rcases Nat.lt_trichotomy x.toNat y.toNat with hlt | heq | hgt
      · simp [hlt, Nat.lt_asymm hlt, Nat.lt_irrefl]
      · simp [heq, Nat.lt_irrefl] at h ⊢
        exact ih h
      · simp [hgt, Nat.lt_asymm hgt] at h

theorem pyStrLt_trichotomy :
    ∀ (a b : List Char), pyStrLt a b = true ∨ a = b ∨ pyStrLt b a = true := by
  intro a
  induction a with
  | nil =>
    intro b
    cases b with
    | nil => simp
    | cons y ys => left; rfl
  | cons x xs ih =>
    intro b
    cases b with
    | nil => right; right; rfl
    | cons y ys =>
      rcases Nat.lt_trichotomy x.toNat y.toNat with hlt | heq | hgt
      · left; simp [pyStrLt, hlt]
      · have hxy : x = y := Char.toNat_inj heq
        subst hxy
        rcases ih ys with h | h | h
        · left; simp [pyStrLt, Nat.lt_irrefl, h]
        · right; left; rw [h]
        · right; right; simp [pyStrLt, Nat.lt_irrefl, h]
      · right; right; simp [pyStrLt, hgt]

theorem pyStrLt_trans :
    ∀ {a b c : List Char}, pyStrLt a b = true → pyStrLt b c = true → pyStrLt a c = true := by
  intro a
  induction a with
  | nil =>
    intro b c hab hbc
    cases b with
    | nil => simp [pyStrLt] at hab
    | cons y ys =>
      cases c with
      | nil => simp [pyStrLt] at hbc
      | cons z zs => rfl
  | cons x xs ih =>
    intro b c hab hbc
    cases b with
    | nil => simp [pyStrLt] at hab
    | cons y ys =>
      cases c with
      | nil => simp [pyStrLt] at hbc
      | cons z zs =>
        simp only [pyStrLt] at hab hbc ⊢
        rcases Nat.lt_trichotomy x.toNat y.toNat with h₁ | h₁ | h₁
        · rcases Nat.lt_trichotomy y.toNat z.toNat with h₂ | h₂ | h₂
          · simp [Nat.lt_trans h₁ h₂]
          · simp [h₂ ▸ h₁]
          · simp [h₂, Nat.lt_asymm h₂] at hbc
        · rcases Nat.lt_trichotomy y.toNat z.toNat with h₂ | h₂ | h₂
          · simp [h₁ ▸ h₂]
          · have hxz : x.toNat = z.toNat := h₁.trans h₂
            simp [h₁, Nat.lt_irrefl] at hab
            simp [h₂, Nat.lt_irrefl] at hbc
            simp [hxz, Nat.lt_irrefl, ih hab hbc]
          · simp [h₂, Nat.lt_asymm h₂] at hbc
        · simp [h₁, Nat.lt_asymm h₁] at hab

theorem nameGe_iff {a b : String} : NameGe a b ↔ pyStrLt a.data b.data = false := Iff.rfl

theorem string_eq_of_data_eq {a b : String} (h : a.data = b.data) : a = b := by
  cases a
  cases b
  exact congrArg String.mk h

instance : IsTotal String NameGe := by
  constructor
  intro a b
  rcases pyStrLt_trichotomy a.data b.data with h | h | h
  · right
    exact pyStrLt_asymm h
  · left
    simp [NameGe, nameLt, h, pyStrLt_irrefl]
  · left
    exact pyStrLt_asymm h

instance : IsTrans String NameGe := by
  constructor
  intro a b c hab hbc
  simp only [NameGe, nameLt] at *
  rcases pyStrLt_trichotomy a.data c.data with h | h | h
  · rcases pyStrLt_trichotomy b.data c.data with h₂ | h₂ | h₂
    · rw [h₂] at hbc; cases hbc
    · rw [h₂] at hab
      rw [hab] at h; cases h
    · have := pyStrLt_trans h h₂
      rw [this] at hab; cases hab
  · rw [h, pyStrLt_irrefl]
  · exact pyStrLt_asymm h

instance : IsAntisymm String NameGe := by
  constructor
  intro a b hab hba
  simp only [NameGe, nameLt] at *
  rcases pyStrLt_trichotomy a.data b.data with h | h | h
  · rw [h] at hab; cases hab
  · exact string_eq_of_data_eq h
  · rw [h] at hba; cases hba

theorem sortDesc_perm (l : List String) : List.Perm (sortDesc l) l := List.perm_insertionSort _ _

theorem sortDesc_sorted (l : List String) : List.Sorted NameGe (sortDesc l) :=
  List.sorted_insertionSort _ _

theorem sortDesc_eq_of_sorted {l : List String} (h : List.Sorted NameGe l) :
    sortDesc l = l :=
  List.eq_of_perm_of_sorted (sortDesc_perm l) (sortDesc_sorted l) h

/-- Strict name order implies `NameGe` in the other direction. -/
theorem nameGe_of_lt {a b : String} (h : nameLt a b = true) : NameGe b a :=
  pyStrLt_asymm h

/-- Strict name order gives inequality. -/
theorem ne_of_nameLt {a b : String} (h : nameLt a b = true) : a ≠ b := by
  intro he
  subst he
  rw [nameLt, pyStrLt_irrefl] at h
  cases h

/-- A list of strictly increasing names sorts (descending) to its reverse. -/
theorem sortDesc_of_ascending {l : List String}
    (h : l.Pairwise (fun a b => nameLt a b = true)) : sortDesc l = l.reverse := by
  apply List.eq_of_perm_of_sorted ((sortDesc_perm l).trans (List.reverse_perm l).symm)
    (sortDesc_sorted l)
  rw [List.Sorted, List.pairwise_reverse]
  exact h.imp (fun hab => nameGe_of_lt hab)

theorem digitChar_toNat {d : Nat} (h : d < 10) : (digitChar d).toNat = 48 + d := by
  match d, h with
  | 0, _ => decide
  | 1, _ => decide
  | 2, _ => decide
  | 3, _ => decide
  | 4, _ => decide
  | 5, _ => decide
  | 6, _ => decide
  | 7, _ => decide
  | 8, _ => decide
  | 9, _ => decide

theorem lt_of_div_lt {a b k : Nat} (h : a / k < b / k) : a < b := by
  by_contra hge
  exact absurd (Nat.div_le_div_right (Nat.le_of_not_lt hge)) (Nat.not_le_of_lt h)

theorem lt_iff_mod_lt_of_div_eq {a b k : Nat} (h : a / k = b / k) :
    a < b ↔ a % k < b % k := by
  have ea : k * (a / k) + a % k = a := Nat.div_add_mod a k
  have eb : k * (b / k) + b % k = b := Nat.div_add_mod b k
  rw [h] at ea
  generalize k * (b / k) = M at ea eb
  omega

theorem eq_iff_mod_eq_of_div_eq {a b k : Nat} (h : a / k = b / k) :
    a = b ↔ a % k = b % k := by
  have ea : k * (a / k) + a % k = a := Nat.div_add_mod a k
  have eb : k * (b / k) + b % k = b := Nat.div_add_mod b k
  rw [h] at ea
  generalize k * (b / k) = M at ea eb
  omega

theorem lt_iff_div_mod (a b k : Nat) :
    a < b ↔ a / k < b / k ∨ (a / k = b / k ∧ a % k < b % k) := by
  rcases Nat.lt_trichotomy (a / k) (b / k) with h | h | h
  · simp [h, lt_of_div_lt h]
  · simp [h, Nat.lt_irrefl, lt_iff_mod_lt_of_div_eq h]
  · constructor
    · intro hab
      exact absurd (lt_of_div_lt h) (Nat.lt_asymm hab)
    · rintro (h' | ⟨h', _⟩)
      · exact absurd h' (Nat.lt_asymm h)
      · rw [h'] at h; exact absurd h (Nat.lt_irrefl _)

theorem pyStrLt_append_left :
    ∀ (p a b : List Char), pyStrLt (p ++ a) (p ++ b) = pyStrLt a b := by
  intro p
  induction p with
  | nil => intro a b; rfl
  | cons x xs ih => intro a b; simp [pyStrLt, Nat.lt_irrefl, ih]

theorem padLt : ∀ (w : Nat) {a b : Nat} (r s : List Char), a < 10 ^ w → b < 10 ^ w →
    (pyStrLt (padDigits w a ++ r) (padDigits w b ++ s) = true ↔
      a < b ∨ (a = b ∧ pyStrLt r s = true)) := by
  intro w
  induction w with
  | zero =>
    intro a b r s ha hb
    have ha0 : a = 0 := Nat.lt_one_iff.mp ha
    have hb0 : b = 0 := Nat.lt_one_iff.mp hb
    subst ha0; subst hb0
    simp [padDigits]
  | succ w ih =>
    intro a b r s ha hb
    have hpow : (0:Nat) < 10 ^ w := Nat.pos_pow_of_pos w (by decide)
    have hda : a / 10 ^ w < 10 := by
      rw [Nat.div_lt_iff_lt_mul hpow]
      calc a < 10 ^ (w + 1) := ha
        _ = 10 * 10 ^ w := by rw [Nat.pow_succ, Nat.mul_comm]
    have hdb : b / 10 ^ w < 10 := by
      rw [Nat.div_lt_iff_lt_mul hpow]
      calc b < 10 ^ (w + 1) := hb
        _ = 10 * 10 ^ w := by rw [Nat.pow_succ, Nat.mul_comm]
    have hma : a % 10 ^ w < 10 ^ w := Nat.mod_lt _ hpow
    have hmb : b % 10 ^ w < 10 ^ w := Nat.mod_lt _ hpow
    simp only [padDigits, List.cons_append, pyStrLt, List.append_eq,
      digitChar_toNat hda, digitChar_toNat hdb]
    rcases Nat.lt_trichotomy (a / 10 ^ w) (b / 10 ^ w) with h | h | h
    · have : 48 + a / 10 ^ w < 48 + b / 10 ^ w := Nat.add_lt_add_left h _
      simp [this, lt_of_div_lt h]
    · have hne : ¬ (48 + a / 10 ^ w < 48 + b / 10 ^ w) := by rw [h]; exact Nat.lt_irrefl _
      have hne' : ¬ (48 + b / 10 ^ w < 48 + a / 10 ^ w) := by rw [h]; exact Nat.lt_irrefl _
      simp only [hne, hne', if_false]
      rw [ih r s hma hmb]
      rw [lt_iff_mod_lt_of_div_eq h]
      rw [eq_iff_mod_eq_of_div_eq h]
    · have h1 : ¬ (48 + a / 10 ^ w < 48 + b / 10 ^ w) := by
        intro hc; exact absurd (Nat.lt_of_add_lt_add_left hc) (Nat.lt_asymm h)
      have h2 : 48 + b / 10 ^ w < 48 + a / 10 ^ w := Nat.add_lt_add_left h _
      have hba : b < a := lt_of_div_lt h
      simp [h1, h2, Nat.lt_asymm hba, Nat.ne_of_gt hba]

theorem nameLt_backupName_iff {t₁ t₂ : Nat} (h₁ : t₁ < 10 ^ 14) (h₂ : t₂ < 10 ^ 14) :
    (nameLt (backupName t₁) (backupName t₂) = true) ↔ t₁ < t₂ := by
  have hd₁ : t₁ / 1000000 < 10 ^ 8 := by
    rw [Nat.div_lt_iff_lt_mul (by decide)]
    calc t₁ < 10 ^ 14 := h₁
      _ = 10 ^ 8 * 1000000 := by norm_num
  have hd₂ : t₂ / 1000000 < 10 ^ 8 := by
    rw [Nat.div_lt_iff_lt_mul (by decide)]
    calc t₂ < 10 ^ 14 := h₂
      _ = 10 ^ 8 * 1000000 := by norm_num
  have hm₁ : t₁ % 1000000 < 10 ^ 6 := Nat.mod_lt _ (by decide)
  have hm₂ : t₂ % 1000000 < 10 ^ 6 := Nat.mod_lt _ (by decide)
  show pyStrLt (backupChars t₁) (backupChars t₂) = true ↔ t₁ < t₂
  unfold backupChars
  rw [List.append_assoc, List.append_assoc, pyStrLt_append_left, padLt 8 _ _ hd₁ hd₂]
  have inner : pyStrLt ('_' :: padDigits 6 (t₁ % 1000000)) ('_' :: padDigits 6 (t₂ % 1000000))
      = pyStrLt (padDigits 6 (t₁ % 1000000) ++ []) (padDigits 6 (t₂ % 1000000) ++ []) := by
    rw [List.append_nil, List.append_nil]
    simp [pyStrLt, Nat.lt_irrefl]
  rw [inner, padLt 6 _ _ hm₁ hm₂]
  rw [lt_iff_div_mod t₁ t₂ 1000000]
  simp [pyStrLt]

theorem backupName_inj {t₁ t₂ : Nat} (h₁ : t₁ < 10 ^ 14) (h₂ : t₂ < 10 ^ 14)
    (h : backupName t₁ = backupName t₂) : t₁ = t₂ := by
  rcases Nat.lt_trichotomy t₁ t₂ with hlt | heq | hgt
  · exact absurd h (ne_of_nameLt ((nameLt_backupName_iff h₁ h₂).mpr hlt))
  · exact heq
  · exact absurd h.symm (ne_of_nameLt ((nameLt_backupName_iff h₂ h₁).mpr hgt))

theorem globBackup_backupName (t : Nat) : globBackup (backupName t) = true := by
  show ("backup_".data.isPrefixOf (backupChars t)) = true
  unfold backupChars
  rw [List.isPrefixOf_iff_prefix]
  exact List.prefix_append _ _

theorem copyEntries_zero :
    ∀ (es : List (String × FSTree)) (c : Nat),
      (copyEntries 0 es c).2.2 = true ∧ (copyEntries 0 es c).1 = copyPure es := by
  refine copyEntries.induct 0
    (fun t c => (copyTree 0 t c).2.2 = true ∧ (copyTree 0 t c).1 = some (copyPureTree t))
    (fun es c => (copyEntries 0 es c).2.2 = true ∧ (copyEntries 0 es c).1 = copyPure es)
    ?_ ?_ ?_ ?_ ?_ ?_ ?_
  · intro s c h
    simp at h
  · intro s c h
    simp [copyTree, h, copyPureTree]
  · intro es c es' c' ok hcall ih
    rw [hcall] at ih
    have ihok : ok = true := ih.1
    have ihes : es' = copyPure es := ih.2
    simp only [copyTree, hcall, copyPureTree]
    exact ⟨ihok, by rw [ihes]⟩
  · intro c
    simp [copyEntries, copyPure]
  · intro n t rest c hig ih
    simp [copyEntries, copyPure, hig, ih.1, ih.2]
  · intro n t rest c hig res c' es' c'' ok hrest htree ih1 ih2
    rw [htree] at ih1
    rw [hrest] at ih2
    have hres : res = some (copyPureTree t) := ih1.2
    have hok : ok = true := ih2.1
    have hes : es' = copyPure rest := ih2.2
    simp only [copyEntries, hig, if_false, htree, Bool.false_eq_true]
    simp [hrest, hok, copyPure, hig, hres, consOpt, hes]
  · intro n t rest c hig res c' ok htree hok ih1
    rw [htree] at ih1
    exact absurd ih1.1 hok

theorem cleanup_old_save_dir (m : SaveBackupManager) :
    (cleanup_old_backups m).save_dir = m.save_dir := by
  simp only [cleanup_old_backups]
  split <;> rfl

theorem cleanup_old_max (m : SaveBackupManager) :
    (cleanup_old_backups m).max_backups = m.max_backups := by
  simp only [cleanup_old_backups]
  split <;> rfl

theorem cleanup_old_script (m : SaveBackupManager) :
    (cleanup_old_backups m).script_entry = m.script_entry := by
  simp only [cleanup_old_backups]
  split <;> rfl

theorem create_backup_save_dir (m : SaveBackupManager) (now : Nat) (desc : Option String)
    (failAt : Nat) : (create_backup m now desc failAt).1.save_dir = m.save_dir := by
  simp only [create_backup]
  repeat' split
  all_goals simp [cleanup_old_save_dir]

theorem create_backup_max (m : SaveBackupManager) (now : Nat) (desc : Option String)
    (failAt : Nat) : (create_backup m now desc failAt).1.max_backups = m.max_backups := by
  simp only [create_backup]
  repeat' split
  all_goals simp [cleanup_old_max]

theorem create_backup_script (m : SaveBackupManager) (now : Nat) (desc : Option String)
    (failAt : Nat) : (create_backup m now desc failAt).1.script_entry = m.script_entry := by
  simp only [create_backup]
  repeat' split
  all_goals simp [cleanup_old_script]

/-- Shape of a successful `create_backup` with no injected failure: the
snapshot (copied tree plus optional sidecar) is appended and retention
cleanup runs. -/
theorem create_backup_success (m : SaveBackupManager) (now : Nat) (desc : Option String)
    (hcnt : (countFilesEntries m.save_dir == 0) = false)
    (hfresh : (m.backups.any (fun e => e.1 == backupName now)) = false) :
    create_backup m now desc 0 =
      (cleanup_old_backups
        { m with backups :=
            m.backups ++ [(backupName now, .dir (withDescription (copyPure m.save_dir) desc))] },
       some (backupName now)) := by
  have h0 := copyEntries_zero m.save_dir 0
  simp only [create_backup]
  rw [hcnt, hfresh]
  simp only [Bool.false_eq_true, if_false]
  rcases heq : copyEntries 0 m.save_dir 0 with ⟨tree, cc, ok⟩
  rw [heq] at h0
  have hok : ok = true := h0.1
  have htr : tree = copyPure m.save_dir := h0.2
  subst hok
  subst htr
  simp

theorem map_fst_filter_name (backups : List (String × FSTree)) (p : String → Bool) :
    ((backups.filter (fun e => p e.1)).map Prod.fst) = (backups.map Prod.fst).filter p := by
  induction backups with
  | nil => rfl
  | cons e rest ih =>
    by_cases h : p e.1 <;> simp [h, ih]

/-- Deleting a superset of `l.drop k` keeps at most `k` elements. -/
theorem length_filter_not_mem {l D : List String} {k : Nat}
    (hD : ∀ a ∈ l.drop k, a ∈ D) :
    (l.filter (fun n => !(D.contains n))).length ≤ k := by
  conv_lhs => rw [← List.take_append_drop k l, List.filter_append]
  have hdrop : (l.drop k).filter (fun n => !(D.contains n)) = [] := by
    rw [List.filter_eq_nil_iff]
    intro a ha
    simp only [List.contains, Bool.not_eq_true']
    rw [List.elem_iff.mpr (hD a ha)]
    simp
  rw [hdrop, List.append_nil]
  calc ((l.take k).filter _).length ≤ (l.take k).length := List.length_filter_le _ _
    _ ≤ k := by rw [List.length_take]; exact Nat.min_le_left _ _

/-- Deleting exactly the members of `D` keeps exactly `l.take k` when `D`
covers `l.drop k` and avoids `l.take k`. -/
theorem filter_not_mem_eq_take {l D : List String} {k : Nat}
    (h₁ : ∀ a ∈ l.drop k, a ∈ D) (h₂ : ∀ a ∈ l.take k, a ∉ D) :
    l.filter (fun n => !(D.contains n)) = l.take k := by
  conv_lhs => rw [← List.take_append_drop k l, List.filter_append]
  have hdrop : (l.drop k).filter (fun n => !(D.contains n)) = [] := by
    rw [List.filter_eq_nil_iff]
    intro a ha
    simp only [List.contains, Bool.not_eq_true']
    rw [List.elem_iff.mpr (h₁ a ha)]
    simp
  have htake : (l.take k).filter (fun n => !(D.contains n)) = l.take k := by
    rw [List.filter_eq_self]
    intro a ha
    simp only [Bool.not_eq_true', ← Bool.not_eq_true]
    intro hc
    exact h₂ a ha (List.elem_iff.mp hc)
  rw [hdrop, htake, List.append_nil]

/-- With distinct elements, deleting the members of `l.drop k` keeps exactly
`l.take k`. -/
theorem filter_not_mem_drop_eq_take (l : List String) (k : Nat) (hnd : l.Nodup) :
    l.filter (fun n => !((l.drop k).contains n)) = l.take k := by
  have hsplit := List.take_append_drop k l
  have hdisj : List.Disjoint (l.take k) (l.drop k) := by
    rw [← hsplit] at hnd
    exact (List.nodup_append.mp hnd).2.2
  exact filter_not_mem_eq_take (fun a ha => ha) (fun a ha hmem => hdisj ha hmem)

theorem filter_comm' (p q : α → Bool) (l : List α) :
    (l.filter p).filter q = (l.filter q).filter p := by
  induction l with
  | nil => rfl
  | cons a rest ih =>
    by_cases hp : p a <;> by_cases hq : q a <;> simp [hp, hq, ih]

/-- Deleting entries by name rewrites `get_backup_list` to a name filter. -/
theorem get_backup_list_delete (backups : List (String × FSTree)) (D : List String) :
    get_backup_list (backups.filter (fun e => !(D.contains e.1))) =
      sortDesc (((backups.map Prod.fst).filter globBackup).filter
        (fun n => !(D.contains n))) := by
  unfold get_backup_list
  rw [map_fst_filter_name backups (fun n => !(D.contains n))]
  rw [filter_comm']

theorem names_perm_backup_list (backups : List (String × FSTree)) :
    List.Perm ((backups.map Prod.fst).filter globBackup) (get_backup_list backups) :=
  (sortDesc_perm _).symm

/-- `cleanup_old_backups` always leaves at most `max_backups` listed
snapshots. -/
theorem cleanup_old_length_le (m : SaveBackupManager) :
    (get_backup_list (cleanup_old_backups m).backups).length ≤ m.max_backups := by
  simp only [cleanup_old_backups]
  split
  case isTrue h =>
    rw [get_backup_list_delete]
    rw [(sortDesc_perm _).length_eq]
    rw [((names_perm_backup_list m.backups).filter _).length_eq]
    exact length_filter_not_mem (fun a ha => ha)
  case isFalse h =>
    exact Nat.le_of_not_lt h

/-- With distinct entry names and an over-full root, `cleanup_old_backups`
keeps exactly the `max_backups` first (newest) entries of the descending
list. -/
theorem cleanup_old_list_of_gt (m : SaveBackupManager)
    (hnd : (m.backups.map Prod.fst).Nodup)
    (hgt : m.max_backups < (get_backup_list m.backups).length) :
    get_backup_list (cleanup_old_backups m).backups =
      (get_backup_list m.backups).take m.max_backups := by
  have hndbs : (get_backup_list m.backups).Nodup :=
    (names_perm_backup_list m.backups).nodup (hnd.filter _)
  simp only [cleanup_old_backups]
  rw [if_pos hgt]
  rw [get_backup_list_delete]
  have heq := filter_not_mem_drop_eq_take (get_backup_list m.backups) m.max_backups hndbs
  refine List.eq_of_perm_of_sorted ?_ (sortDesc_sorted _)
    ((sortDesc_sorted _).sublist (List.take_sublist _ _))
  exact ((sortDesc_perm _).trans
    ((names_perm_backup_list m.backups).filter _)).trans (heq ▸ List.Perm.refl _)

/-- If `cleanup_old_backups` does not fire, the state is unchanged. -/
theorem cleanup_old_of_le (m : SaveBackupManager)
    (h : ¬ m.max_backups < (get_backup_list m.backups).length) :
    cleanup_old_backups m = m := by
  simp only [cleanup_old_backups]
  rw [if_neg h]

theorem filter_eq_drop {α : Type} {l : List α} {q : α → Bool} (k : Nat)
    (h₁ : ∀ a ∈ l.take k, q a = false) (h₂ : ∀ a ∈ l.drop k, q a = true) :
    l.filter q = l.drop k := by
  conv_lhs => rw [← List.take_append_drop k l, List.filter_append]
  rw [List.filter_eq_nil_iff.mpr (fun a ha => by simp [h₁ a ha]),
    List.filter_eq_self.mpr h₂, List.nil_append]

theorem filter_map_comm {α β : Type} (l : List α) (f : α → β) (p : β → Bool) :
    (l.map f).filter p = (l.filter (fun x => p (f x))).map f := by
  induction l with
  | nil => rfl
  | cons a rest ih =>
    by_cases h : p (f a) <;> simp [h, ih]

/-- The last `n` elements of a list. -/
def lastN {α : Type} (n : Nat) (l : List α) : List α := l.drop (l.length - n)

theorem lastN_length_le {α : Type} (n : Nat) (l : List α) : (lastN n l).length ≤ n := by
  simp only [lastN, List.length_drop]
  omega

theorem lastN_of_le {α : Type} {n : Nat} {l : List α} (h : l.length ≤ n) : lastN n l = l := by
  simp only [lastN]
  rw [Nat.sub_eq_zero_of_le h, List.drop_zero]

theorem lastN_sublist {α : Type} (n : Nat) (l : List α) : (lastN n l).Sublist l :=
  List.drop_sublist _ _

theorem lastN_lastN {α : Type} {j n : Nat} (l : List α) (h : j ≤ n) :
    lastN j (lastN n l) = lastN j l := by
  simp only [lastN, List.length_drop, List.drop_drop]
  congr 1
  omega

theorem lastN_append {α : Type} (n : Nat) (a b : List α) :
    lastN n (a ++ b) = if n ≤ b.length then lastN n b else lastN (n - b.length) a ++ b := by
  split
  case isTrue h =>
    simp only [lastN, List.length_append]
    rw [show a.length + b.length - n = a.length + (b.length - n) by omega]
    rw [List.drop_append]
  case isFalse h =>
    simp only [lastN, List.length_append]
    rw [List.drop_append_of_le_length (by omega)]
    congr 2
    omega

theorem lastN_lastN_append {α : Type} (n : Nat) (l r : List α) :
    lastN n ((lastN n l) ++ r) = lastN n (l ++ r) := by
  rw [lastN_append, lastN_append]
  split
  · rfl
  · rw [lastN_lastN l (Nat.sub_le _ _)]

theorem names_ascending {L : List Nat} (hP : L.Pairwise (· < ·))
    (hb : ∀ x ∈ L, x < 10 ^ 14) :
    (L.map backupName).Pairwise (fun a b => nameLt a b = true) := by
  rw [List.pairwise_map]
  exact hP.imp_of_mem (fun ha hb' h =>
    (nameLt_backupName_iff (hb _ ha) (hb _ hb')).mpr h)

theorem get_backup_list_map {L : List Nat} (T : FSTree) (hP : L.Pairwise (· < ·))
    (hb : ∀ x ∈ L, x < 10 ^ 14) :
    get_backup_list (L.map (fun t => (backupName t, T))) = (L.map backupName).reverse := by
  unfold get_backup_list
  rw [List.map_map]
  have h1 : (L.map (Prod.fst ∘ fun t => (backupName t, T))) = L.map backupName := rfl
  rw [h1, List.filter_eq_self.mpr (fun a ha => by
    obtain ⟨t, _, rfl⟩ := List.mem_map.mp ha
    exact globBackup_backupName t)]
  exact sortDesc_of_ascending (names_ascending hP hb)

theorem pairwise_lt_nodup {L : List Nat} (h : L.Pairwise (· < ·)) : L.Nodup :=
  h.imp Nat.ne_of_lt

/-- A fresh, strictly larger timestamp never collides with existing
well-formed snapshot names. -/
theorem any_name_fresh {W : List Nat} {t : Nat} (T : FSTree)
    (hw : ∀ w ∈ W, w < t) (hb : ∀ w ∈ W, w < 10 ^ 14) (ht : t < 10 ^ 14) :
    ((W.map (fun w => (backupName w, T))).any
      (fun e => e.1 == backupName t)) = false := by
  rw [List.any_eq_false]
  intro e he
  obtain ⟨w, hwm, rfl⟩ := List.mem_map.mp he
  simp only [beq_iff_eq]
  exact ne_of_nameLt ((nameLt_backupName_iff (hb w hwm) ht).mpr (hw w hwm))

/-- One successful `create_backup` step from a well-formed window `W`. -/
theorem create_step {W : List Nat} {t : Nat} {m : SaveBackupManager}
    (hB : m.backups = W.map (fun w => (backupName w, FSTree.dir (copyPure m.save_dir))))
    (hw : ∀ w ∈ W, w < t) (hb : ∀ w ∈ W, w < 10 ^ 14) (ht : t < 10 ^ 14)
    (hPW : W.Pairwise (· < ·))
    (hcnt : (countFilesEntries m.save_dir == 0) = false)
    (hlen : W.length ≤ m.max_backups) (hmax : 1 ≤ m.max_backups) :
    (create_backup m t none 0).1.backups =
      (lastN m.max_backups (W ++ [t])).map
        (fun w => (backupName w, FSTree.dir (copyPure m.save_dir))) ∧
    (create_backup m t none 0).1.save_dir = m.save_dir ∧
    (create_backup m t none 0).1.max_backups = m.max_backups ∧
    (create_backup m t none 0).2 = some (backupName t) := by
  have hfresh : (m.backups.any (fun e => e.1 == backupName t)) = false := by
    rw [hB]; exact any_name_fresh _ hw hb ht
  have hsucc := create_backup_success m t none hcnt hfresh
  set f : Nat → String × FSTree := fun w => (backupName w, FSTree.dir (copyPure m.save_dir))
    with hf
  have hmap : m.backups ++ [(backupName t, FSTree.dir (withDescription (copyPure m.save_dir) none))]
      = (W ++ [t]).map f := by
    rw [hB, List.map_append]
    rfl
  have hPL : (W ++ [t]).Pairwise (· < ·) := by
    rw [List.pairwise_append]
    exact ⟨hPW, List.pairwise_singleton _ _, fun w hwm x hx => by
      rw [List.mem_singleton.mp hx]; exact hw w hwm⟩
  have hbL : ∀ x ∈ W ++ [t], x < 10 ^ 14 := by
    intro x hx
    rcases List.mem_append.mp hx with h | h
    · exact hb x h
    · rw [List.mem_singleton.mp h]; exact ht
  have hgl : get_backup_list ((W ++ [t]).map f) = ((W ++ [t]).map backupName).reverse :=
    get_backup_list_map _ hPL hbL
  rw [hsucc]
  simp only [cleanup_old_backups, hmap, hgl]
  split
  case isFalse hle =>
    have hlen1 : (W ++ [t]).length ≤ m.max_backups := by
      simp only [List.length_reverse, List.length_map] at hle
      simpa using Nat.le_of_not_lt hle
    rw [lastN_of_le hlen1]
    exact ⟨rfl, rfl, rfl, trivial⟩
  case isTrue hgt =>
    have hWlen : W.length = m.max_backups := by
      simp only [List.length_reverse, List.length_map, List.length_append,
        List.length_cons, List.length_nil] at hgt
      omega
    cases W with
    | nil =>
      rw [← hWlen] at hmax
      exact absurd hmax (by simp)
    | cons a₀ W₂ =>
      have hcons : (a₀ :: W₂) ++ [t] = a₀ :: (W₂ ++ [t]) := rfl
      have hrev : (List.map backupName ((a₀ :: W₂) ++ [t])).reverse
          = (List.map backupName (W₂ ++ [t])).reverse ++ [backupName a₀] := by
        rw [hcons, List.map_cons, List.reverse_cons]
      have hlen2 : ((List.map backupName (W₂ ++ [t])).reverse).length = m.max_backups := by
        simp only [List.length_reverse, List.length_map, List.length_append,
          List.length_cons, List.length_nil]
        simp only [List.length_cons] at hWlen
        omega
      have hD : (List.drop m.max_backups (List.map backupName ((a₀ :: W₂) ++ [t])).reverse)
          = [backupName a₀] := by
        rw [hrev, ← hlen2, List.drop_left]
      have hq : ((a₀ :: W₂) ++ [t]).filter
            (fun x => !(([backupName a₀]).contains (backupName x)))
          = W₂ ++ [t] := by
        have hrel : ∀ x ∈ W₂ ++ [t], a₀ < x := by
          rw [hcons] at hPL
          exact fun x hx => (List.pairwise_cons.mp hPL).1 x hx
        have hb' : ∀ x ∈ W₂ ++ [t], x < 10 ^ 14 := by
          intro x hx
          exact hbL x (by rw [hcons]; exact List.mem_cons_of_mem _ hx)
        have ha14 : a₀ < 10 ^ 14 := hbL a₀ (by rw [hcons]; exact List.mem_cons_self _ _)
        rw [hcons]
        refine filter_eq_drop 1 ?_ ?_
        · intro x hx
          simp only [List.take_succ_cons, List.take_zero, List.mem_singleton] at hx
          subst hx
          simp [List.contains]
        · intro x hx
          simp only [List.drop_succ_cons, List.drop_zero] at hx
          have hne : backupName x ≠ backupName a₀ :=
            (ne_of_nameLt ((nameLt_backupName_iff ha14 (hb' x hx)).mpr (hrel x hx))).symm
          simp [List.contains, hne]
      have hlast : lastN m.max_backups ((a₀ :: W₂) ++ [t]) = W₂ ++ [t] := by
        have hl : ((a₀ :: W₂) ++ [t]).length - m.max_backups = 1 := by
          simp only [List.length_append, List.length_cons, List.length_nil]
          simp only [List.length_cons] at hWlen
          omega
        simp only [lastN]
        rw [hl]
        rfl
      refine ⟨?_, rfl, rfl, trivial⟩
      rw [hD, filter_map_comm _ f (fun e => !(([backupName a₀]).contains e.1)), hlast]
      have : ((a₀ :: W₂) ++ [t]).filter (fun x => !(([backupName a₀]).contains (f x).1))
          = ((a₀ :: W₂) ++ [t]).filter (fun x => !(([backupName a₀]).contains (backupName x))) := rfl
      rw [this, hq]

/-- Invariant of a run of successful creates at strictly increasing
timestamps: the backup root always holds the newest `max_backups` snapshots
of the timestamps seen so far (`W` is the current window). -/
theorem runCreates_inv :
    ∀ (ts W : List Nat) (m : SaveBackupManager),
      m.backups = W.map (fun w => (backupName w, FSTree.dir (copyPure m.save_dir))) →
      (W ++ ts).Pairwise (· < ·) →
      (∀ x ∈ W ++ ts, x < 10 ^ 14) →
      (countFilesEntries m.save_dir == 0) = false →
      W.length ≤ m.max_backups →
      1 ≤ m.max_backups →
      (runCreates m ts).backups =
        (lastN m.max_backups (W ++ ts)).map
          (fun w => (backupName w, FSTree.dir (copyPure m.save_dir))) ∧
      (runCreates m ts).save_dir = m.save_dir ∧
      (runCreates m ts).max_backups = m.max_backups := by
  intro ts
  induction ts with
  | nil =>
    intro W m hB hP hb hcnt hlen hmax
    refine ⟨?_, rfl, rfl⟩
    simp only [runCreates, List.append_nil]
    rw [lastN_of_le hlen]
    exact hB
  | cons t ts' ih =>
    intro W m hB hP hb hcnt hlen hmax
    have hw : ∀ w ∈ W, w < t := fun w hwm =>
      (List.pairwise_append.mp hP).2.2 w hwm t (List.mem_cons_self _ _)
    have hbW : ∀ w ∈ W, w < 10 ^ 14 := fun w hwm => hb w (List.mem_append_left _ hwm)
    have ht : t < 10 ^ 14 := hb t (List.mem_append_right _ (List.mem_cons_self _ _))
    have hPW : W.Pairwise (· < ·) := (List.pairwise_append.mp hP).1
    obtain ⟨hb1, hs1, hm1, _⟩ := create_step hB hw hbW ht hPW hcnt hlen hmax
    have hrun : runCreates m (t :: ts') = runCreates (create_backup m t none 0).1 ts' := rfl
    have happ : (W ++ [t]) ++ ts' = W ++ t :: ts' := by
      rw [List.append_assoc]; rfl
    have hsubl : (lastN m.max_backups (W ++ [t]) ++ ts').Sublist (W ++ t :: ts') := by
      rw [← happ]
      exact (lastN_sublist _ _).append_right _
    have hB₁ : (create_backup m t none 0).1.backups =
        (lastN m.max_backups (W ++ [t])).map
          (fun w => (backupName w, FSTree.dir (copyPure (create_backup m t none 0).1.save_dir))) := by
      rw [hs1]; exact hb1
    obtain ⟨r1, r2, r3⟩ := ih (lastN m.max_backups (W ++ [t])) (create_backup m t none 0).1
      hB₁
      (List.Pairwise.sublist hsubl hP)
      (fun x hx => hb x (hsubl.subset hx))
      (by rw [hs1]; exact hcnt)
      (by rw [hm1]; exact lastN_length_le _ _)
      (by rw [hm1]; exact hmax)
    refine ⟨?_, ?_, ?_⟩
    · rw [hrun, r1, hs1, hm1, lastN_lastN_append, happ]
    · rw [hrun, r2, hs1]
    · rw [hrun, r3, hm1]

/-- A successful `create_backup` went through `cleanup_old_backups`. -/
theorem create_backup_success_struct {m : SaveBackupManager} {now : Nat} {desc : Option String}
    {failAt : Nat} {nm : String} (hs : (create_backup m now desc failAt).2 = some nm) :
    ∃ m₁, (create_backup m now desc failAt).1 = cleanup_old_backups m₁ ∧
      m₁.max_backups = m.max_backups := by
  by_cases h1 : (countFilesEntries m.save_dir == 0) = true
  · simp [create_backup, h1] at hs
  · by_cases h2 : (m.backups.any (fun e => e.1 == backupName now)) = true
    · simp [create_backup, h1, h2] at hs
    · rcases heq : copyEntries failAt m.save_dir 0 with ⟨tree, cc, ok⟩
      by_cases h3 : ok = true
      · refine ⟨{ m with backups := m.backups ++
          [(backupName now, .dir (withDescription tree desc))] }, ?_, rfl⟩
        simp [create_backup, h1, h2, heq, h3]
      · exfalso
        simp [create_backup, h1, h2, heq, h3] at hs

/-- After any successful `create_backup`, at most `max_backups` snapshots
are listed. -/
theorem create_backup_bound {m : SaveBackupManager} {now : Nat} {desc : Option String}
    {failAt : Nat} {nm : String} (hs : (create_backup m now desc failAt).2 = some nm) :
    (get_backup_list (create_backup m now desc failAt).1.backups).length ≤ m.max_backups := by
  obtain ⟨m₁, he, hmx⟩ := create_backup_success_struct hs
  rw [he, ← hmx]
  exact cleanup_old_length_le m₁

/-- The strict maximum of a name list heads its descending sort. -/
theorem sortDesc_head_of_max {l : List String} {x : String} (hx : x ∈ l)
    (hmax : ∀ y ∈ l, y = x ∨ nameLt y x = true) : (sortDesc l).head? = some x := by
  have hmem : x ∈ sortDesc l := ((sortDesc_perm l).mem_iff).mpr hx
  cases hsd : sortDesc l with
  | nil => rw [hsd] at hmem; cases hmem
  | cons h tl =>
    rw [hsd] at hmem
    have hsorted := sortDesc_sorted l
    rw [hsd] at hsorted
    have hh : h ∈ l := (sortDesc_perm l).subset (hsd ▸ List.mem_cons_self h tl)
    rcases hmax h hh with rfl | hlt
    · rfl
    · rcases List.mem_cons.mp hmem with rfl | hxtl
      · rfl
      · have hge : NameGe h x := List.rel_of_sorted_cons hsorted x hxtl
        rw [NameGe, hlt] at hge
        cases hge

/-- Deleting the names after position `k` of the descending list keeps
exactly its first `k` names (distinct names). -/
theorem delete_drop_take (backups : List (String × FSTree)) (k : Nat)
    (hnd : (backups.map Prod.fst).Nodup) :
    get_backup_list (backups.filter
      (fun e => !(((get_backup_list backups).drop k).contains e.1))) =
      (get_backup_list backups).take k := by
  have hndbs : (get_backup_list backups).Nodup :=
    (names_perm_backup_list backups).nodup (hnd.filter _)
  rw [get_backup_list_delete]
  have heq := filter_not_mem_drop_eq_take (get_backup_list backups) k hndbs
  refine List.eq_of_perm_of_sorted ?_ (sortDesc_sorted _)
    ((sortDesc_sorted _).sublist (List.take_sublist _ _))
  exact ((sortDesc_perm _).trans
    ((names_perm_backup_list backups).filter _)).trans (heq ▸ List.Perm.refl _)

/-- Every kept name of the descending list dominates every dropped name. -/
theorem get_backup_list_take_drop (backups : List (String × FSTree)) (k : Nat) :
    ∀ x ∈ (get_backup_list backups).take k, ∀ y ∈ (get_backup_list backups).drop k,
      NameGe x y := by
  have hp : (get_backup_list backups).Pairwise NameGe := sortDesc_sorted _
  rw [← List.take_append_drop k (get_backup_list backups)] at hp
  exact fun x hx y hy => (List.pairwise_append.mp hp).2.2 x hx y hy

theorem cleanup_backups_ret (m : SaveBackupManager) (kc : Option Nat) (confirm : Bool) :
    (cleanup_backups m kc confirm).2 = none := by
  simp only [cleanup_backups]
  repeat' split
  all_goals rfl

theorem existsNodeEntries_append (p : String → Bool) (a b : List (String × FSTree)) :
    existsNodeEntries p (a ++ b) = (existsNodeEntries p a || existsNodeEntries p b) := by
  induction a with
  | nil => simp [existsNodeEntries]
  | cons e rest ih =>
    rcases e with ⟨n, t⟩
    simp [existsNodeEntries, ih, Bool.or_assoc]

/-- No node of a copied tree matches the ignore patterns: `copytree` skips
them at every level, even on an aborted copy. -/
theorem copyEntries_no_ignored (failAt : Nat) :
    ∀ (es : List (String × FSTree)) (c : Nat),
      existsNodeEntries ignoredName (copyEntries failAt es c).1 = false := by
  refine copyEntries.induct failAt
    (fun t c => ∀ t', (copyTree failAt t c).1 = some t' →
      existsNodeTree ignoredName t' = false)
    (fun es c => existsNodeEntries ignoredName (copyEntries failAt es c).1 = false)
    ?_ ?_ ?_ ?_ ?_ ?_ ?_
  · intro s c h t' ht'
    rw [copyTree, if_pos h] at ht'
    cases ht'
  · intro s c h t' ht'
    rw [copyTree, if_neg h] at ht'
    injection ht' with ht'
    rw [← ht']
    rfl
  · intro es c es' c' ok hcall ih t' ht'
    have hstep : (copyTree failAt (FSTree.dir es) c).1 = some (FSTree.dir es') := by
      simp [copyTree, hcall]
    rw [hstep] at ht'
    injection ht' with ht'
    rw [← ht']
    show existsNodeEntries ignoredName es' = false
    have h1 : (copyEntries failAt es c).1 = es' := by rw [hcall]
    rw [← h1]
    exact ih
  · intro c
    rfl
  · intro n t rest c hig ih
    have hstep : (copyEntries failAt ((n, t) :: rest) c).1 = (copyEntries failAt rest c).1 := by
      simp [copyEntries, hig]
    rw [hstep]
    exact ih
  · intro n t rest c hig res c' es' c'' ok hrest htree ih1 ih2
    have hstep : (copyEntries failAt ((n, t) :: rest) c).1 = consOpt n res es' := by
      simp [copyEntries, hig, htree, hrest]
    have hresrest : (copyEntries failAt rest c').1 = es' := by rw [hrest]
    rw [hstep]
    have higf : ignoredName n = false := Bool.not_eq_true _ ▸ hig
    cases res with
    | none =>
      simp only [consOpt]
      rw [← hresrest]
      exact ih2
    | some t' =>
      simp only [consOpt, existsNodeEntries]
      rw [higf, ih1 t' (by rw [htree])]
      simp only [Bool.false_or]
      rw [← hresrest]
      exact ih2
  · intro n t rest c hig res c' ok htree hok ih1
    have hokf : ok = false := Bool.not_eq_true _ ▸ hok
    have hstep : (copyEntries failAt ((n, t) :: rest) c).1 = consOpt n res [] := by
      simp [copyEntries, hig, htree, hokf]
    rw [hstep]
    have higf : ignoredName n = false := Bool.not_eq_true _ ▸ hig
    cases res with
    | none => rfl
    | some t' =>
      simp only [consOpt, existsNodeEntries]
      rw [higf, ih1 t' (by rw [htree])]
      rfl

/-- `copy2Into` only touches entries named `n`: every entry with a
different name survives a successful copy unchanged. -/
theorem copy2Into_preserves {acc : List (String × FSTree)} {e : String × FSTree}
    (he : e ∈ acc) {n : String} (hne : e.1 ≠ n) {s : String}
    {acc' : List (String × FSTree)} (h : copy2Into acc n s = some acc') :
    e ∈ acc' := by
  have hfix : ∀ (x : String × FSTree), (if e.1 == n then x else e) = e := by
    intro x
    rw [if_neg (by simpa using hne)]
  unfold copy2Into at h
  cases hf : findBackup n acc with
  | none =>
    rw [hf] at h
    injection h with h
    rw [← h]
    exact List.mem_append_left _ he
  | some t =>
    cases t with
    | file s' =>
      rw [hf] at h
      injection h with h
      rw [← h]
      exact hfix _ ▸ List.mem_map_of_mem _ he
    | dir d =>
      rw [hf] at h
      dsimp only at h
      cases hd : findBackup n d with
      | none =>
        rw [hd] at h
        injection h with h
        rw [← h]
        exact hfix _ ▸ List.mem_map_of_mem _ he
      | some t' =>
        cases t' with
        | file s'' =>
          rw [hd] at h
          injection h with h
          rw [← h]
          exact hfix _ ▸ List.mem_map_of_mem _ he
        | dir d' =>
          rw [hd] at h
          cases h

/-- The restore copy loop leaves untouched every save-dir entry whose name
matches no top-level snapshot entry (also on an aborted copy). -/
theorem restoreCopy_preserves_fresh :
    ∀ (es acc : List (String × FSTree)) (e : String × FSTree),
      e ∈ acc → (∀ p ∈ es, p.1 ≠ e.1) → e ∈ (restoreCopy acc es).1 := by
  intro es
  induction es with
  | nil => intro acc e he _; exact he
  | cons p rest ih =>
    intro acc e he hfresh
    rcases p with ⟨n, t⟩
    have hne : e.1 ≠ n := fun hc => hfresh (n, t) (List.mem_cons_self _ _) hc.symm
    have hfresh' : ∀ q ∈ rest, q.1 ≠ e.1 := fun q hq =>
      hfresh q (List.mem_cons_of_mem _ hq)
    by_cases hdesc : (n == ".backup_description") = true
    · simp only [restoreCopy]
      rw [if_pos hdesc]
      exact ih acc e he hfresh'
    · simp only [restoreCopy]
      rw [if_neg hdesc]
      cases t with
      | file s =>
        dsimp only
        cases hc : copy2Into acc n s with
        | none => exact he
        | some acc' => exact ih acc' e (copy2Into_preserves he hne hc) hfresh'
      | dir sub =>
        dsimp only
        by_cases hany : (acc.any fun x => x.1 == n) = true
        · rw [if_pos hany]
          exact he
        · rw [if_neg hany]
          exact ih _ e (List.mem_append_left _ he) hfresh'

/-- A listing with no ignored node anywhere has no ignored top-level name. -/
theorem top_names_not_ignored {es : List (String × FSTree)}
    (h : existsNodeEntries ignoredName es = false) :
    ∀ e ∈ es, ignoredName e.1 = false := by
  induction es with
  | nil => intro e he; cases he
  | cons p rest ih =>
    intro e he
    rcases p with ⟨n, t⟩
    rw [existsNodeEntries] at h
    simp only [Bool.or_eq_false_iff] at h
    rcases List.mem_cons.mp he with rfl | hmem
    · exact h.1.1
    · exact ih h.2 e hmem

/-- A found snapshot tree belongs to the root under some name. -/
theorem findBackup_mem {nm : String} {bl : List (String × FSTree)} {t : FSTree}
    (h : findBackup nm bl = some t) : ∃ n', (n', t) ∈ bl := by
  unfold findBackup at h
  cases hf : bl.find? (fun e => e.1 == nm) with
  | none =>
    rw [hf] at h
    cases h
  | some e =>
    rw [hf] at h
    injection h with h
    refine ⟨e.1, ?_⟩
    rw [← h]
    exact List.mem_of_find?_eq_some hf

theorem head?_take {α : Type} {l : List α} {k : Nat} (hk : 1 ≤ k) :
    (l.take k).head? = l.head? := by
  cases l with
  | nil => simp
  | cons a tl =>
    cases k with
    | zero => omega
    | succ k' => simp

/-! ### Claim theorems -/

/-- Scenario of the repository's interruption test
(tests/test_backup.py::test_interrupted_backup_leaves_no_partial_and_metadata_on_success):
ten files in the save directory, empty backup root, the third file copy
raises. -/
def interruptedRun : SaveBackupManager × Option String :=
  create_backup
    { save_dir := [("f0.txt", .file "data0"), ("f1.txt", .file "data1"),
                   ("f2.txt", .file "data2"), ("f3.txt", .file "data3"),
                   ("f4.txt", .file "data4"), ("f5.txt", .file "data5"),
                   ("f6.txt", .file "data6"), ("f7.txt", .file "data7"),
                   ("f8.txt", .file "data8"), ("f9.txt", .file "data9")]
      backups := [], max_backups := 5 }
    20250101000000 (some "interrupted") 3

/-- C1: the claim fails on the code.  When the third of ten file copies
raises, `create_backup` does return failure (`None`), but the backup root
afterwards contains a visible, partially populated directory named with the
`backup_` prefix holding only the two files copied before the failure:
`shutil.copytree` writes directly to the final visible name (no staging) and
the exception handler performs no cleanup (backup.py:378-383, 401-403).  The
repository's own test asserts that no visible `backup_*` directory remains,
so the code contradicts its own test suite. -/
theorem c1_interrupted_create_leaves_partial_visible_snapshot :
    interruptedRun.2 = none ∧
    interruptedRun.1.backups =
      [("backup_20250101_000000",
        .dir [("f0.txt", .file "data0"), ("f1.txt", .file "data1")])] ∧
    ((interruptedRun.1.backups.map Prod.fst).filter globBackup).length = 1 :=
  ⟨rfl, rfl, rfl⟩

/-- One-file save directory for the manifest claim. -/
def manifestRun : SaveBackupManager × Option String :=
  create_backup
    { save_dir := [("file1.txt", .file "hello")], backups := [], max_backups := 5 }
    20250101000000 (some "final") 0

/-- C2: the claim fails on the code.  A fully successful `create_backup`
writes only the copied tree and the optional `.backup_description` sidecar;
no manifest file (checksum, completion timestamp, move method) exists
anywhere in the snapshot — the code has no staging, no atomic promotion and
no `moved`/`copied` distinction at all (backup.py:385-399), while the
repository's own test asserts a `.backup_meta.json` manifest with exactly
those keys. -/
theorem c2_successful_create_writes_no_manifest :
    manifestRun.2 = some "backup_20250101_000000" ∧
    manifestRun.1.backups =
      [("backup_20250101_000000",
        .dir [("file1.txt", .file "hello"), (".backup_description", .file "final")])] ∧
    (manifestRun.1.backups.all
      (fun e => !(existsNodeTree (fun n => n == ".backup_meta.json") e.2))) = true :=
  ⟨rfl, rfl, rfl⟩

/-- Save directory holding only a transient artifact (`x.tmp`). -/
def tmpOnlyRun : SaveBackupManager × Option String :=
  create_backup
    { save_dir := [("x.tmp", .file "junk")], backups := [], max_backups := 3 }
    20250101000000 none 0

/-- C4, counterexample: a source tree whose enumeration *excluding transient
artifacts* (the spec's reading) is empty does not make `create_backup` fail:
the code's `os.walk` count (backup.py:361) excludes nothing, counts the
`.tmp` file, and `create_backup` succeeds, producing an empty visible
snapshot (the copy then ignores the artifact). -/
theorem c4_artifact_only_source_creates_empty_snapshot :
    specFileCount [("x.tmp", FSTree.file "junk")] = 0 ∧
    tmpOnlyRun.2 = some "backup_20250101_000000" ∧
    tmpOnlyRun.1.backups = [("backup_20250101_000000", .dir [])] :=
  ⟨rfl, rfl, rfl⟩

/-- C4, amended: `create_backup` fails with no side effects exactly on the
raw recursive file count of the source directory being zero — no exclusion
of the backup root or of transient artifacts is applied to the count. -/
theorem c4_amended_zero_raw_count_is_noop :
    ∀ (m : SaveBackupManager) (now : Nat) (desc : Option String) (failAt : Nat),
      countFilesEntries m.save_dir = 0 →
      create_backup m now desc failAt = (m, none) := by
  intro m now desc failAt h
  simp [create_backup, h]

/-- Witness for the amended C4 at an empty save directory. -/
theorem c4_amended_witness :
    countFilesEntries ([] : List (String × FSTree)) = 0 ∧
    create_backup { save_dir := [], backups := [], max_backups := 3 } 20250101000000 none 0
      = ({ save_dir := [], backups := [], max_backups := 3 }, none) :=
  ⟨rfl, c4_amended_zero_raw_count_is_noop _ 20250101000000 none 0 rfl⟩

/-- The repository test's restore fixture
(tests/test_backup.py::test_restore_backup): source `a.txt = "old"`, one
manually constructed snapshot `backup_20250101_000000` with
`a.txt = "new"`. -/
def restoreFixture : SaveBackupManager :=
  { save_dir := [("a.txt", .file "old")]
    backups := [("backup_20250101_000000", .dir [("a.txt", .file "new")])]
    max_backups := 5 }

/-- C5: the claim fails on the code.  The shipped `restore_backup` has no
`skip_confirmation` parameter (its signature is
`restore_backup(self, backup_choice=None)`, backup.py:458) and
unconditionally prompts via `input()` even for an explicit in-range index
(backup.py:505-506), so the call `restore_backup(1, skip_confirmation=True)`
made by the repository's own tests and all four GUIs raises `TypeError`.  In
the model, the prompt's outcome is the `confirm` argument: with the prompt
declined nothing is restored; the snapshot's content lands in the source
directory only when the interactive prompt is answered `y`. -/
theorem c5_restore_is_gated_on_interactive_prompt :
    restore_backup restoreFixture 1 false 20250101000100 0 = (restoreFixture, false) ∧
    (restore_backup restoreFixture 1 true 20250101000100 0).2 = true ∧
    (restore_backup restoreFixture 1 true 20250101000100 0).1.save_dir
      = [("a.txt", FSTree.file "new")] :=
  ⟨rfl, rfl, rfl⟩

/-- One-snapshot state for the delete claim. -/
def deleteFixture : SaveBackupManager :=
  { save_dir := [("a.txt", .file "x")]
    backups := [("backup_20250101_000001", .dir [("a.txt", .file "x")])]
    max_backups := 5 }

/-- C6: the claim fails on the code.  Neither `restore_backup` nor
`delete_backup` accepts a `skipConfirmation` argument (backup.py:458, 555),
and both consult the interactive `input()` prompt even for an explicit
in-range index (backup.py:505-506, 592-593): with the prompt declined the
operation is refused, with it granted it proceeds — the engine's behaviour
depends on interactive input, contradicting the claim (and
test_confirmation_bypass.py, which requires a `skip_confirmation`
parameter defaulting to `False` on both methods). -/
theorem c6_delete_and_restore_consume_interactive_confirmation :
    delete_backup deleteFixture 1 false = (deleteFixture, false) ∧
    (delete_backup deleteFixture 1 true).1.backups = [] ∧
    (delete_backup deleteFixture 1 true).2 = true ∧
    restore_backup deleteFixture 1 false 20250101000002 0 = (deleteFixture, false) :=
  ⟨rfl, rfl, rfl, rfl⟩

/-- C3: retention bound and oldest-first eviction.  First conjunct: after
any successful `create_backup` at most `max_backups` snapshots are listed.
Second conjunct: `max_backups + k` successful creates at strictly increasing
timestamps from an empty root leave exactly the `max_backups` newest
snapshots — the `k` oldest were removed. -/
theorem c3_retention_bound_and_oldest_first :
    (∀ (m : SaveBackupManager) (now : Nat) (desc : Option String) (failAt : Nat)
        (nm : String),
      (create_backup m now desc failAt).2 = some nm →
      (get_backup_list (create_backup m now desc failAt).1.backups).length
        ≤ m.max_backups) ∧
    (∀ (m : SaveBackupManager) (ts : List Nat) (k : Nat),
      m.backups = [] → 1 ≤ m.max_backups →
      ts.Pairwise (· < ·) → (∀ x ∈ ts, x < 10 ^ 14) →
      countFilesEntries m.save_dir ≠ 0 →
      ts.length = m.max_backups + k →
      get_backup_list (runCreates m ts).backups = ((ts.drop k).map backupName).reverse ∧
      (get_backup_list (runCreates m ts).backups).length = m.max_backups) := by
  constructor
  · intro m now desc failAt nm hs
    exact create_backup_bound hs
  · intro m ts k hB hmax hP hb hcnt hlen
    have hcnt' : (countFilesEntries m.save_dir == 0) = false := by
      simpa using hcnt
    obtain ⟨r1, r2, r3⟩ := runCreates_inv ts [] m (by rw [hB]; rfl)
      hP hb hcnt' (Nat.zero_le _) hmax
    rw [List.nil_append] at r1
    have hdrop : lastN m.max_backups ts = ts.drop k := by
      unfold lastN
      congr 1
      omega
    rw [hdrop] at r1
    have hPd : (ts.drop k).Pairwise (· < ·) :=
      List.Pairwise.sublist (List.drop_sublist _ _) hP
    have hbd : ∀ x ∈ ts.drop k, x < 10 ^ 14 := fun x hx =>
      hb x ((List.drop_sublist _ _).subset hx)
    constructor
    · rw [r1, get_backup_list_map _ hPd hbd]
    · rw [r1, get_backup_list_map _ hPd hbd]
      simp only [List.length_reverse, List.length_map, List.length_drop]
      omega

/-- Concrete three-create run with `max_backups = 2` for the C3 witness. -/
def retentionFixture : SaveBackupManager :=
  { save_dir := [("a.txt", .file "x")], backups := [], max_backups := 2 }

/-- Witness for C3 at `N = 2`, `k = 1`: three creates keep the two newest. -/
theorem c3_witness :
    (get_backup_list (runCreates retentionFixture
        [20250101000001, 20250101000002, 20250101000003]).backups
      = ["backup_20250101_000003", "backup_20250101_000002"]) ∧
    (get_backup_list (runCreates retentionFixture
        [20250101000001, 20250101000002, 20250101000003]).backups).length = 2 := by
  have h := (c3_retention_bound_and_oldest_first.2 retentionFixture
    [20250101000001, 20250101000002, 20250101000003] 1 rfl (by decide) (by decide)
    (by decide) (by decide) rfl)
  constructor
  · rw [h.1]
    decide
  · exact h.2

/-- A successful create over a root of older well-formed snapshots heads the
subsequent listing. -/
theorem create_then_head {m : SaveBackupManager} {now : Nat}
    (hmax : 1 ≤ m.max_backups)
    (hcnt : (countFilesEntries m.save_dir == 0) = false)
    (hnow : now < 10 ^ 14)
    (hold : ∀ e ∈ m.backups, ∃ t, t < now ∧ e.1 = backupName t)
    (hnd : (m.backups.map Prod.fst).Nodup) :
    (create_backup m now none 0).2 = some (backupName now) ∧
    (get_backup_list (create_backup m now none 0).1.backups).head? =
      some (backupName now) := by
  have hfresh : (m.backups.any (fun e => e.1 == backupName now)) = false := by
    rw [List.any_eq_false]
    intro e he
    obtain ⟨t, hlt, hename⟩ := hold e he
    simp only [beq_iff_eq]
    rw [hename]
    exact ne_of_nameLt ((nameLt_backupName_iff (lt_trans hlt hnow) hnow).mpr hlt)
  have hsucc := create_backup_success m now none hcnt hfresh
  refine ⟨by rw [hsucc], ?_⟩
  rw [hsucc]
  have hhead :
      (get_backup_list (m.backups ++
        [(backupName now, FSTree.dir (withDescription (copyPure m.save_dir) none))])).head?
      = some (backupName now) := by
    apply sortDesc_head_of_max
    · rw [List.mem_filter]
      constructor
      · rw [List.map_append]
        exact List.mem_append_right _ (by simp)
      · exact globBackup_backupName now
    · intro y hy
      have hy' := (List.mem_filter.mp hy).1
      rw [List.map_append] at hy'
      rcases List.mem_append.mp hy' with hyo | hyn
      · obtain ⟨e, he, rfl⟩ := List.mem_map.mp hyo
        obtain ⟨t, hlt, hename⟩ := hold e he
        right
        rw [hename]
        exact (nameLt_backupName_iff (lt_trans hlt hnow) hnow).mpr hlt
      · left
        simpa using hyn
  have hnd₁ : ((m.backups ++
      [(backupName now, FSTree.dir (withDescription (copyPure m.save_dir) none))]).map
        Prod.fst).Nodup := by
    rw [List.map_append, List.nodup_append]
    refine ⟨hnd, by simp, ?_⟩
    intro a ha hb'
    obtain ⟨e, he, rfl⟩ := List.mem_map.mp ha
    obtain ⟨t, hlt, hename⟩ := hold e he
    have : e.1 ≠ backupName now := by
      rw [hename]
      exact ne_of_nameLt ((nameLt_backupName_iff (lt_trans hlt hnow) hnow).mpr hlt)
    simp at hb'
    exact this hb'
  set m₁ : SaveBackupManager :=
    { m with backups := m.backups ++
        [(backupName now, FSTree.dir (withDescription (copyPure m.save_dir) none))] }
  by_cases hgt : m₁.max_backups < (get_backup_list m₁.backups).length
  · rw [cleanup_old_list_of_gt m₁ hnd₁ hgt]
    rw [head?_take hmax]
    exact hhead
  · rw [cleanup_old_of_le m₁ hgt]
    exact hhead

/-- C7: a successful create immediately heads the listing, because
fixed-width zero-padded snapshot names compare lexicographically exactly as
their timestamps (second conjunct), so the fresh (largest) timestamp sorts
first and survives retention. -/
theorem c7_create_then_list_and_name_order :
    (∀ (m : SaveBackupManager) (now : Nat),
      1 ≤ m.max_backups →
      countFilesEntries m.save_dir ≠ 0 →
      now < 10 ^ 14 →
      (∀ e ∈ m.backups, ∃ t, t < now ∧ e.1 = backupName t) →
      (m.backups.map Prod.fst).Nodup →
      (create_backup m now none 0).2 = some (backupName now) ∧
      (get_backup_list (create_backup m now none 0).1.backups).head? =
        some (backupName now)) ∧
    (∀ t₁ t₂ : Nat, t₁ < 10 ^ 14 → t₂ < 10 ^ 14 →
      (nameLt (backupName t₁) (backupName t₂) = true ↔ t₁ < t₂)) := by
  constructor
  · intro m now hmax hcnt hnow hold hnd
    exact create_then_head hmax (by simpa using hcnt) hnow hold hnd
  · intro t₁ t₂ h₁ h₂
    exact nameLt_backupName_iff h₁ h₂

/-- One older snapshot for the C7 witness. -/
def listHeadFixture : SaveBackupManager :=
  { save_dir := [("a.txt", .file "x")]
    backups := [("backup_20250101_000000", .dir [("a.txt", .file "old")])]
    max_backups := 2 }

/-- Witness for C7: create at the later timestamp heads the list. -/
theorem c7_witness :
    (create_backup listHeadFixture 20250101000001 none 0).2
      = some (backupName 20250101000001) ∧
    (get_backup_list (create_backup listHeadFixture 20250101000001 none 0).1.backups).head?
      = some (backupName 20250101000001) ∧
    (nameLt (backupName 20250101000000) (backupName 20250101000001) = true ↔
      20250101000000 < 20250101000001) := by
  have h1 := c7_create_then_list_and_name_order.1 listHeadFixture 20250101000001
    (by decide) (by decide) (by decide)
    (by
      intro e he
      rcases List.mem_singleton.mp he with rfl
      exact ⟨20250101000000, by decide, by decide⟩)
    (by decide)
  exact ⟨h1.1, h1.2,
    c7_create_then_list_and_name_order.2 20250101000000 20250101000001 (by decide) (by decide)⟩

/-- Three snapshots, generous retention bound, for the cleanup claim. -/
def cleanupFixture : SaveBackupManager :=
  { save_dir := [("a.txt", .file "x")]
    backups := [("backup_20250101_000001", .dir [("a.txt", .file "x")]),
                ("backup_20250101_000002", .dir [("a.txt", .file "x")]),
                ("backup_20250101_000003", .dir [("a.txt", .file "x")])]
    max_backups := 10 }

/-- C8, counterexample: with three snapshots and `keep_count = 1`,
`cleanup_backups` removes two snapshots (keeping the newest) but returns
`None`, not the number of snapshots removed: no code path of the Python
function returns a value (backup.py:605-629). -/
theorem c8_counterexample_cleanup_returns_none :
    (cleanup_backups cleanupFixture (some 1) true).2 = none ∧
    (cleanup_backups cleanupFixture (some 1) true).2 ≠ some 2 ∧
    cleanupFixture.backups.length
      - (cleanup_backups cleanupFixture (some 1) true).1.backups.length = 2 ∧
    ((cleanup_backups cleanupFixture (some 1) true).1.backups.map Prod.fst)
      = ["backup_20250101_000003"] := by
  refine ⟨rfl, by decide, by decide, by decide⟩

/-- C8, amended: `keep_count` defaults to `max_backups`; within the bound
cleanup is a strict no-op; over the bound, *after the interactive
confirmation is granted*, exactly the oldest `count − keepCount` snapshots
are deleted (every kept name dominates every deleted name in the descending
order); and cleanup always returns `None` rather than a removal count. -/
theorem c8_cleanup_amended_behaviour :
    ∀ (m : SaveBackupManager) (kc : Option Nat) (confirm : Bool),
      (cleanup_backups m kc confirm).2 = none ∧
      ((get_backup_list m.backups).length ≤ kc.getD m.max_backups →
        cleanup_backups m kc confirm = (m, none)) ∧
      ((m.backups.map Prod.fst).Nodup → confirm = true →
        kc.getD m.max_backups < (get_backup_list m.backups).length →
        get_backup_list (cleanup_backups m kc confirm).1.backups =
          (get_backup_list m.backups).take (kc.getD m.max_backups) ∧
        (get_backup_list m.backups).length -
          (get_backup_list (cleanup_backups m kc confirm).1.backups).length =
          (get_backup_list m.backups).length - kc.getD m.max_backups ∧
        (∀ x ∈ get_backup_list (cleanup_backups m kc confirm).1.backups,
          ∀ y ∈ (get_backup_list m.backups).drop (kc.getD m.max_backups),
            NameGe x y)) := by
  intro m kc confirm
  refine ⟨cleanup_backups_ret m kc confirm, ?_, ?_⟩
  · intro hle
    simp only [cleanup_backups]
    rw [if_pos hle]
  · intro hnd hconf hgt
    subst hconf
    have hstate : (cleanup_backups m kc true).1 =
        { m with backups := m.backups.filter (fun e =>
            !(((get_backup_list m.backups).drop (kc.getD m.max_backups)).contains e.1)) } := by
      simp only [cleanup_backups]
      rw [if_neg (Nat.not_le_of_lt hgt)]
      simp
    rw [hstate]
    have hdel := delete_drop_take m.backups (kc.getD m.max_backups) hnd
    refine ⟨hdel, ?_, ?_⟩
    · rw [hdel, List.length_take]
      omega
    · intro x hx y hy
      rw [hdel] at hx
      exact get_backup_list_take_drop m.backups _ x hx y hy

/-- Witness for the amended C8 at the three-snapshot fixture. -/
theorem c8_amended_witness :
    (cleanup_backups cleanupFixture (some 1) true).2 = none ∧
    get_backup_list (cleanup_backups cleanupFixture (some 1) true).1.backups
      = (get_backup_list cleanupFixture.backups).take 1 := by
  have h := c8_cleanup_amended_behaviour cleanupFixture (some 1) true
  exact ⟨h.1, (h.2.2 (by decide) rfl (by decide)).1⟩

/-- Entries of `cleanup_old_backups` come from the original root. -/
theorem cleanup_old_backups_subset (m : SaveBackupManager) :
    ∀ e ∈ (cleanup_old_backups m).backups, e ∈ m.backups := by
  intro e he
  simp only [cleanup_old_backups] at he
  split at he
  · exact (List.mem_filter.mp he).1
  · exact he

/-- C9: a snapshot produced by a successful `create_backup` contains no
entry named `backups` or `__pycache__` and no node matching `*.pyc` or
`*.tmp` at any depth: `shutil.ignore_patterns` filters entry names at every
level of the copy, so a source subdirectory legitimately named `backups` is
silently omitted from every snapshot even though the configured backup root
is a different directory (in the model the backup root is disjoint from the
save tree by construction, and the quantification is over arbitrary roots). -/
theorem c9_snapshots_free_of_ignored_names :
    ∀ (m : SaveBackupManager) (now : Nat) (desc : Option String) (failAt : Nat)
        (nm : String),
      (create_backup m now desc failAt).2 = some nm →
      ∀ tr, (nm, tr) ∈ (create_backup m now desc failAt).1.backups →
        existsNodeTree ignoredName tr = false := by
  intro m now desc failAt nm hs tr hmem
  by_cases h1 : (countFilesEntries m.save_dir == 0) = true
  · simp [create_backup, h1] at hs
  · by_cases h2 : (m.backups.any (fun e => e.1 == backupName now)) = true
    · simp [create_backup, h1, h2] at hs
    · rcases heq : copyEntries failAt m.save_dir 0 with ⟨tree, cc, ok⟩
      by_cases h3 : ok = true
      · have hv : (create_backup m now desc failAt).2 = some (backupName now) := by
          simp [create_backup, h1, h2, heq, h3]
        have hnm : nm = backupName now := by
          rw [hv] at hs
          injection hs with hs
          exact hs.symm
        have hres : (create_backup m now desc failAt).1 =
            cleanup_old_backups { m with backups := m.backups ++
              [(backupName now, .dir (withDescription tree desc))] } := by
          simp [create_backup, h1, h2, heq, h3]
        rw [hres] at hmem
        have hmem₁ : (nm, tr) ∈ m.backups ++
            [(backupName now, FSTree.dir (withDescription tree desc))] :=
          cleanup_old_backups_subset _ _ hmem
        rcases List.mem_append.mp hmem₁ with holdm | hnew
        · exfalso
          have h2f : (m.backups.any (fun e => e.1 == backupName now)) = false :=
            Bool.not_eq_true _ ▸ h2
          rw [List.any_eq_false] at h2f
          exact h2f _ holdm (by simp [hnm.symm])
        · have htr : tr = FSTree.dir (withDescription tree desc) := by
            have h := List.mem_singleton.mp hnew
            rw [Prod.ext_iff] at h
            exact h.2
          rw [htr]
          show existsNodeEntries ignoredName (withDescription tree desc) = false
          have htree : existsNodeEntries ignoredName tree = false := by
            have h := copyEntries_no_ignored failAt m.save_dir 0
            rw [heq] at h
            exact h
          cases desc with
          | none => exact htree
          | some d =>
            rw [withDescription, existsNodeEntries_append, htree]
            rfl
      · exfalso
        simp [create_backup, h1, h2, heq, h3] at hs

/-- Save tree containing a `backups` subdirectory and transient artifacts,
with a disjoint backup root. -/
def ignoredNamesFixture : SaveBackupManager :=
  { save_dir := [("a.txt", .file "x"),
                 ("backups", .dir [("backup_20240101_000000", .dir [])]),
                 ("b.pyc", .file "y"), ("c.tmp", .file "z"),
                 ("sub", .dir [("__pycache__", .dir [("m.pyc", .file "p")]),
                               ("keep.txt", .file "k")])]
    backups := [], max_backups := 5 }

/-- Witness for C9: the snapshot of the fixture omits the `backups`
subdirectory and all artifacts at every depth. -/
theorem c9_witness :
    (create_backup ignoredNamesFixture 20250101000000 none 0).2
      = some "backup_20250101_000000" ∧
    existsNodeTree ignoredName
      (FSTree.dir [("a.txt", FSTree.file "x"),
        ("sub", FSTree.dir [("keep.txt", FSTree.file "k")])]) = false := by
  constructor
  · rfl
  · exact c9_snapshots_free_of_ignored_names ignoredNamesFixture 20250101000000 none 0
      "backup_20250101_000000" rfl _ (List.mem_cons_self _ _)

/-- After any `create_backup` call, each root entry is either an original
entry or a newly written snapshot tree free of ignored names at every
depth. -/
theorem create_backup_entry_shape (m : SaveBackupManager) (now : Nat)
    (desc : Option String) (failAt : Nat) :
    ∀ e ∈ (create_backup m now desc failAt).1.backups,
      e ∈ m.backups ∨ existsNodeTree ignoredName e.2 = false := by
  intro e he
  by_cases h1 : (countFilesEntries m.save_dir == 0) = true
  · left
    simp only [create_backup, h1, if_true] at he
    exact he
  · by_cases h2 : (m.backups.any (fun e => e.1 == backupName now)) = true
    · left
      simp [create_backup, h1, h2] at he
      exact he
    · rcases heq : copyEntries failAt m.save_dir 0 with ⟨tree, cc, ok⟩
      have htree : existsNodeEntries ignoredName tree = false := by
        have h := copyEntries_no_ignored failAt m.save_dir 0
        rw [heq] at h
        exact h
      by_cases h3 : ok = true
      · have hres : (create_backup m now desc failAt).1 =
            cleanup_old_backups { m with backups := m.backups ++
              [(backupName now, .dir (withDescription tree desc))] } := by
          simp [create_backup, h1, h2, heq, h3]
        rw [hres] at he
        rcases List.mem_append.mp (cleanup_old_backups_subset _ _ he) with ho | hn
        · left
          exact ho
        · right
          rw [List.mem_singleton.mp hn]
          show existsNodeEntries ignoredName (withDescription tree desc) = false
          cases desc with
          | none => exact htree
          | some d =>
            rw [withDescription, existsNodeEntries_append, htree]
            rfl
      · have hres : (create_backup m now desc failAt).1.backups =
            m.backups ++ [(backupName now, FSTree.dir tree)] := by
          simp [create_backup, h1, h2, heq, h3]
        rw [hres] at he
        rcases List.mem_append.mp he with ho | hn
        · left
          exact ho
        · right
          rw [List.mem_singleton.mp hn]
          exact htree

/-- C10: the removal phase of `restore_backup` is keyed to the entry name
"backups" (and to identity with the script file), not to the configured
backup-root path.  First conjunct: every top-level save-dir entry named
"backups" survives the removal phase unmodified.  Second conjunct: only
entries named "backups" or equal to the script file survive it.  Third
conjunct: a save-dir subdirectory named "backups" survives a whole
confirmed `restore_backup` run untouched, whatever the (separately
configured) backup root contains, provided no snapshot under the root has a
top-level entry named "backups" — snapshots written by `create_backup`
(including the pre-restore safety snapshot) never do, since the ignore
patterns exclude that name; for a manually built snapshot holding a *file*
named "backups", `shutil.copy2` would instead copy that file into the
surviving directory, changing its contents but not deleting it. -/
theorem c10_removal_keyed_to_entry_name :
    (∀ (sc : Option String) (save : List (String × FSTree)) (tr : FSTree),
      ("backups", tr) ∈ save → ("backups", tr) ∈ removeSaveEntries sc save) ∧
    (∀ (sc : Option String) (save : List (String × FSTree)) (e : String × FSTree),
      e ∈ removeSaveEntries sc save →
        e ∈ save ∧ (e.1 = "backups" ∨ sc = some e.1)) ∧
    (∀ (m : SaveBackupManager) (idx : Nat) (sub : List (String × FSTree))
        (nowS failS : Nat),
      ("backups", FSTree.dir sub) ∈ m.save_dir →
      (∀ (nm : String) (es : List (String × FSTree)),
        (nm, FSTree.dir es) ∈ m.backups → ∀ p ∈ es, p.1 ≠ "backups") →
      1 ≤ idx → idx ≤ (get_backup_list m.backups).length →
      ("backups", FSTree.dir sub) ∈ (restore_backup m idx true nowS failS).1.save_dir) := by
  refine ⟨?_, ?_, ?_⟩
  · intro sc save tr h
    exact List.mem_filter.mpr ⟨h, by simp⟩
  · intro sc save e h
    have h' := List.mem_filter.mp h
    refine ⟨h'.1, ?_⟩
    have hp := h'.2
    simp only [Bool.or_eq_true, beq_iff_eq] at hp
    rcases hp with hp | hp
    · left; exact hp
    · right
      exact hp
  · intro m idx sub nowS failS hmem hsnap hidx1 hidx2
    have hk : ("backups", FSTree.dir sub) ∈
        removeSaveEntries
          (create_backup m nowS (some "Pre-restore safety backup") failS).1.script_entry
          (create_backup m nowS (some "Pre-restore safety backup") failS).1.save_dir := by
      unfold removeSaveEntries
      rw [create_backup_save_dir]
      exact List.mem_filter.mpr ⟨hmem, by simp⟩
    have hlen0 : ((get_backup_list m.backups).length == 0) = false := by
      simp only [beq_eq_false_iff_ne, ne_eq]
      omega
    have hrange : (decide (idx < 1) || decide (idx > (get_backup_list m.backups).length))
        = false := by
      simp only [Bool.or_eq_false_iff, decide_eq_false_iff_not]
      omega
    simp only [restore_backup, hlen0, hrange, Bool.not_true, Bool.false_eq_true, if_false]
    cases hfind : findBackup
        ((get_backup_list m.backups).getD (idx - 1) "")
        (create_backup m nowS (some "Pre-restore safety backup") failS).1.backups with
    | none => exact hk
    | some t =>
      cases t with
      | file s => exact hk
      | dir es =>
        dsimp only
        have hfresh : ∀ p ∈ es, p.1 ≠ "backups" := by
          obtain ⟨n', hmem'⟩ := findBackup_mem hfind
          rcases create_backup_entry_shape m nowS (some "Pre-restore safety backup") failS
              _ hmem' with ho | hclean
          · exact hsnap n' es ho
          · intro p hp hpn
            have := top_names_not_ignored hclean p hp
            rw [hpn] at this
            cases this
        exact restoreCopy_preserves_fresh es _ _ hk hfresh

/-- Save dir with a `backups` subdirectory while the configured backup root
is a different directory, for the C10 witness. -/
def removalFixture : SaveBackupManager :=
  { save_dir := [("a.txt", .file "old"), ("backups", .dir [("junk", .file "j")])]
    backups := [("backup_20250101_000000", .dir [("a.txt", .file "new")])]
    max_backups := 5 }

/-- Witness for C10: the save-dir `backups` subdirectory survives a whole
confirmed restore although the backup root is elsewhere. -/
theorem c10_witness :
    ("backups", FSTree.dir [("junk", FSTree.file "j")]) ∈
      (restore_backup removalFixture 1 true 20250101000100 0).1.save_dir :=
  c10_removal_keyed_to_entry_name.2.2 removalFixture 1 [("junk", FSTree.file "j")]
    20250101000100 0 (List.mem_cons_of_mem _ (List.mem_cons_self _ _))
    (by
      intro nm es h p hp
      have h' := List.mem_singleton.mp h
      rw [Prod.ext_iff] at h'
      have hes : FSTree.dir es = FSTree.dir [("a.txt", FSTree.file "new")] := h'.2
      injection hes with hes
      rw [hes] at hp
      rw [List.mem_singleton.mp hp]
      decide)
    (by decide) (by decide)
